import Mathlib

/-!
# Rift: `rift::dijkstra`

A shallow embedding of `include/rift/algorithms/search/dijkstra.hpp`.

* `std::vector<Node>` is a `List`; iterators are positions (`Nat`), `end(v)` is `v.length`.
* The lambdas `push` and `pop` capture `searchState.openSet` by reference; here they take the
  open set as an argument and return the new one. `push` also writes to its argument `Node& n`,
  so it returns the updated node as well.
* The cost type `C` (`std::is_arithmetic_v<C>`) is a totally ordered type with a zero and a
  `std::numeric_limits<C>::max()`. The code never adds costs, so no overflow can occur.
  Floating-point `NaN`, which is not ordered, is outside the model.
* The headers `rift/util/rustify.hpp` and `rift/algorithms/search/search_concepts.hpp` are not
  part of the sources at hand. The keywords `fn` and `let` of the first are read as `auto` and
  `const auto`; the concepts `NeighborFn<T>` and `CostFn<T>` of the second are read as the types
  `T → List T` and `T → T → C` of the callbacks.
* The lambda `pop` binds a reference to `openSet.back()`, removes that element with `pop_back()`
  and then writes to it and returns it. For a trivially destructible vertex type the destructor
  call does nothing and the storage still holds the value. For any other vertex type (such as
  `std::string`) the element has been destroyed: `pop` returns a dangling node, and the run ends
  in a fault when the driver destroys that node. The class `Vertex` records which case holds.
* `std::push_heap`, `std::pop_heap` and `std::make_heap` are not part of the repository. They are
  embedded as the classical array-heap algorithms (sift-up, sift-down, bottom-up construction),
  following the textbook form found in LLVM libc++. The library moves elements through a hole;
  the embedding swaps, which leaves the same final array.
-/

namespace Rift

/-- Cost types: the arithmetic types `C` accepted by `requires std::is_arithmetic_v<C>`, with
their order, the literal `0`, and `std::numeric_limits<C>::max()`. -/
class Arithmetic (C : Type) extends LinearOrder C, Zero C where
  /-- The value of `std::numeric_limits<C>::max()`. -/
  numericLimitsMax : C

/-- The cost type `unsigned int` (32 bits); the code performs no arithmetic on costs. -/
instance instArithmeticNat : Arithmetic Nat where
  numericLimitsMax := 4294967295

/-- Vertex types: what the embedding needs to know of the C++ type `T` beyond its values, namely
whether `std::is_trivially_destructible_v<T>` holds. -/
class Vertex (T : Type) where
  /-- The value of `std::is_trivially_destructible_v<T>`. -/
  triviallyDestructible : Bool

/-- The vertex type `std::string`, whose destructor releases the character buffer. -/
instance instVertexString : Vertex String where
  triviallyDestructible := false

namespace detail

/-- The struct `detail::DijkstraNode<T, C>`. The raw pointer `T* parent` is never written or read
by the code; it is kept as an optional vertex, unset at construction. -/
structure DijkstraNode (T C : Type) where
  /-- The data represented by this node -/
  data : T
  /-- The parent of this node -/
  parent : Option T
  /-- The accumulated cost to come to this node -/
  costToCome : C
  /-- Flag indicating if this node is on the open set -/
  isOpen : Bool
  /-- Flag indicating if this node has been removed from the open set -/
  isClosed : Bool
deriving DecidableEq, Repr

/-- The constructor `DijkstraNode(T dataIn)` with the default member initialisers. -/
def DijkstraNode.new {T C : Type} [Arithmetic C] (dataIn : T) : DijkstraNode T C :=
  { data := dataIn
    parent := none
    costToCome := Arithmetic.numericLimitsMax
    isOpen := false
    isClosed := false }

/-- The struct `detail::DijkstraState<T, C>`. -/
structure DijkstraState (T C : Type) where
  /-- The vector of nodes kept as a binary heap -/
  openSet : List (DijkstraNode T C)
deriving DecidableEq, Repr

end detail

open detail

section Heap

variable {α : Type}

/-- The exchange `swap(l[i], l[j])`; a position outside the list leaves it as it is. -/
def swapAt (l : List α) (i j : Nat) : List α :=
  match l[i]?, l[j]? with
  | some x, some y => (l.set i y).set j x
  | _, _ => l

/-- The comparison `comp(l[i], l[j])`, false when a position is outside the list. -/
def compAt (comp : α → α → Bool) (l : List α) (i j : Nat) : Bool :=
  match l[i]?, l[j]? with
  | some x, some y => comp x y
  | _, _ => false

/-- The heap test `std::is_heap(begin(l), end(l), comp)`: no element compares above its heap
parent, i.e. `comp(l[(i-1)/2], l[i])` is false for every position `i > 0`. -/
def is_heap (comp : α → α → Bool) (l : List α) : Bool :=
  (List.range l.length).all fun i => i == 0 || !compAt comp l ((i - 1) / 2) i

/-- The larger child of `start` within the first `len` elements: the right child `2 * start + 2`
when it exists and the left child compares below it, the left child `2 * start + 1` otherwise. -/
def largerChild (comp : α → α → Bool) (len : Nat) (l : List α) (start : Nat) : Nat :=
  let left := 2 * start + 1
  if left + 1 < len ∧ compAt comp l left (left + 1) then left + 1 else left

/-- The sift-down of `start` within the first `len` elements: while the element at `start` does
not dominate its larger child, exchange the two and continue from the child. The first argument
bounds the number of exchanges; `len` is always enough. -/
def sift_down (comp : α → α → Bool) (len : Nat) : Nat → List α → Nat → List α
  | 0, l, _ => l
  | fuel + 1, l, start =>
    if len < 2 ∨ (len - 2) / 2 < start then l
    else
      let child := largerChild comp len l start
      if compAt comp l child start then l
      else sift_down comp len fuel (swapAt l start child) child

/-- The sift-up of position `i`: while the heap parent compares below the element, exchange the
two and continue from the parent. The first argument bounds the number of exchanges; `i` is
always enough. -/
def sift_up (comp : α → α → Bool) : Nat → List α → Nat → List α
  | 0, l, _ => l
  | fuel + 1, l, i =>
    if i = 0 then l
    else
      let parent := (i - 1) / 2
      if compAt comp l parent i then sift_up comp fuel (swapAt l parent i) parent
      else l

/-- The call `std::push_heap(begin(l), end(l), comp)`: sift the last element up. -/
def push_heap (comp : α → α → Bool) (l : List α) : List α :=
  sift_up comp l.length l (l.length - 1)

/-- The call `std::pop_heap(begin(l), end(l), comp)`: exchange the first and the last element and
sift the new first element down within the range without the last position. -/
def pop_heap (comp : α → α → Bool) (l : List α) : List α :=
  if 1 < l.length then
    sift_down comp (l.length - 1) (l.length - 1) (swapAt l 0 (l.length - 1)) 0
  else l

/-- The loop of `std::make_heap`: sift down the positions `start, start - 1, ..., 0`. -/
def make_heap_loop (comp : α → α → Bool) (len : Nat) : Nat → List α → List α
  | 0, l => sift_down comp len len l 0
  | start + 1, l => make_heap_loop comp len start (sift_down comp len len l (start + 1))

/-- The call `std::make_heap(begin(l), end(l), comp)`. -/
def make_heap (comp : α → α → Bool) (l : List α) : List α :=
  if 1 < l.length then make_heap_loop comp l.length ((l.length - 2) / 2) l else l

/-- The heap order on the first `len` elements, for the heap edges whose parent is at position
`s` or later: along such an edge the child does not compare above its parent. For `s = 0` and
`len = l.length` this is `is_heap`. -/
def HeapFrom (comp : α → α → Bool) (l : List α) (len s : Nat) : Prop :=
  ∀ i, 0 < i → i < len → s ≤ (i - 1) / 2 → compAt comp l ((i - 1) / 2) i = false

/-- What the heap algorithms require of `comp` (a strict weak ordering): it is asymmetric, and
"does not compare below" is transitive. -/
structure IsHeapComparison (comp : α → α → Bool) : Prop where
  /-- No two elements compare below each other. -/
  asymm : ∀ x y, comp x y = true → comp y x = false
  /-- When `x` is not below `y` and `y` is not below `z`, then `x` is not below `z`. -/
  trans_not : ∀ x y z, comp x y = false → comp y z = false → comp x z = false

/-- The position an element at `k` comes from when positions `i` and `j` are exchanged. -/
def swapIdx (i j k : Nat) : Nat :=
  if k = i then j else if k = j then i else k

/-- The search `std::ranges::find_if(l, pred)` as a position; `l.length` stands for `end(l)`. -/
def find_if (l : List α) (pred : α → Bool) : Nat :=
  l.findIdx pred

end Heap

section Search

variable {T C : Type} [Arithmetic C]

/-- The lambda `sortNodes`: `l.costToCome > r.costToCome`. -/
def sortNodes (l r : DijkstraNode T C) : Bool :=
  decide (l.costToCome > r.costToCome)

/-- The label `pushNew:` inside `push`: mark the node open, append it, restore the heap. -/
def pushNew (openSet : List (DijkstraNode T C)) (n : DijkstraNode T C) :
    List (DijkstraNode T C) × DijkstraNode T C :=
  let n1 := { n with isOpen := true }
  (push_heap sortNodes (openSet ++ [n1]), n1)

/-- The assignment `it->costToCome = c` at position `it`. -/
def assignCost (openSet : List (DijkstraNode T C)) (it : Nat) (c : C) :
    List (DijkstraNode T C) :=
  match openSet[it]? with
  | some f => openSet.set it { f with costToCome := c }
  | none => openSet

/-- The lambda `push`: the open set and the argument node after the call. -/
def push [DecidableEq T] (openSet : List (DijkstraNode T C)) (n : DijkstraNode T C) :
    List (DijkstraNode T C) × DijkstraNode T C :=
  if n.isClosed then (openSet, n)
  else if n.isOpen then
    let it := find_if openSet (fun f => decide (n.data = f.data))
    if it = openSet.length then pushNew openSet n
    else (make_heap sortNodes (assignCost openSet it n.costToCome), n)
  else pushNew openSet n

/-- The faults of the embedding: undefined behaviour the code can run into. -/
inductive Fault where
  /-- The calls `openSet.back()` and `openSet.pop_back()` on an empty vector. -/
  | emptyFrontierAccess
  /-- The destruction of a node that was moved out of an element `pop_back()` had already
  destroyed: its vertex is released a second time. -/
  | useAfterDestruction
deriving DecidableEq, Repr

/-- What `pop` returns: the node it read from the removed element. -/
inductive PoppedNode (T C : Type) where
  /-- The value of the removed element, for a trivially destructible vertex type. -/
  | intact (node : DijkstraNode T C)
  /-- A node moved out of an element whose destructor has run: its vertex is dangling. -/
  | dangling
deriving DecidableEq, Repr

/-- The lambda `pop`: the returned node and the open set after the call. The code runs
`std::pop_heap`, binds `auto&& node` to `openSet.back()`, removes that element with
`pop_back()`, and only then sets `node.isClosed` and returns `node`. With a trivially
destructible vertex type the storage still holds the element, and the node returned is its value
with `isClosed` set; otherwise the element has been destroyed and the node returned is
dangling. -/
def pop [Vertex T] (openSet : List (DijkstraNode T C)) :
    Except Fault (PoppedNode T C × List (DijkstraNode T C)) :=
  let heap := pop_heap sortNodes openSet
  match heap.getLast? with
  | none => .error .emptyFrontierAccess
  | some node =>
    if Vertex.triviallyDestructible T then
      .ok (.intact { node with isClosed := true }, heap.dropLast)
    else .ok (.dangling, heap.dropLast)

end Search

/-! ## Lengths

The heap algorithms only exchange elements, so they keep the length of the vector; `pop` then
removes one element, which is what makes the extract loop of `dijkstra` terminate. -/

section Lengths

variable {α : Type}

theorem swapAt_length (l : List α) (i j : Nat) : (swapAt l i j).length = l.length := by
  unfold swapAt
  split <;> simp

theorem sift_down_length (comp : α → α → Bool) (len fuel : Nat) (l : List α) (start : Nat) :
    (sift_down comp len fuel l start).length = l.length := by
  induction fuel generalizing l start with
  | zero => rfl
  | succ fuel ih =>
    simp only [sift_down]
    repeat' split
    all_goals first | rfl | rw [ih, swapAt_length]

theorem sift_up_length (comp : α → α → Bool) (fuel : Nat) (l : List α) (i : Nat) :
    (sift_up comp fuel l i).length = l.length := by
  induction fuel generalizing l i with
  | zero => rfl
  | succ fuel ih =>
    simp only [sift_up]
    split
    · rfl
    · split
      · rw [ih, swapAt_length]
      · rfl

theorem push_heap_length (comp : α → α → Bool) (l : List α) :
    (push_heap comp l).length = l.length :=
  sift_up_length comp _ l _

theorem pop_heap_length (comp : α → α → Bool) (l : List α) :
    (pop_heap comp l).length = l.length := by
  unfold pop_heap
  split
  · rw [sift_down_length, swapAt_length]
  · rfl

theorem make_heap_loop_length (comp : α → α → Bool) (len start : Nat) (l : List α) :
    (make_heap_loop comp len start l).length = l.length := by
  induction start generalizing l with
  | zero => exact sift_down_length comp len len l 0
  | succ start ih =>
    simp only [make_heap_loop]
    rw [ih, sift_down_length]

theorem make_heap_length (comp : α → α → Bool) (l : List α) :
    (make_heap comp l).length = l.length := by
  unfold make_heap
  split
  · exact make_heap_loop_length comp _ _ l
  · rfl

end Lengths

section Driver

variable {T C : Type} [Arithmetic C] [Vertex T]

theorem pop_length {openSet rest : List (DijkstraNode T C)} {node : PoppedNode T C}
    (h : pop openSet = .ok (node, rest)) : rest.length + 1 = openSet.length := by
  unfold pop at h
  simp only at h
  split at h
  · cases h
  · rename_i last hlast
    have hrest : rest = (pop_heap sortNodes openSet).dropLast := by
      split at h <;> cases h <;> rfl
    have hne : pop_heap sortNodes openSet ≠ [] := by
      intro hnil
      rw [hnil] at hlast
      cases hlast
    have hpos : 0 < (pop_heap sortNodes openSet).length := List.length_pos.mpr hne
    rw [hrest, List.length_dropLast, ← pop_heap_length sortNodes openSet]
    omega

/-- The loop `while (!searchState.openSet.empty()) { let currentNode = pop(); }`: the successive
values of `currentNode` and the open set when the loop is left. At the end of the loop body
`currentNode` is destroyed; when it is a dangling node, that is the fault. -/
def extractLoop (openSet : List (DijkstraNode T C)) :
    Except Fault (List (DijkstraNode T C) × List (DijkstraNode T C)) :=
  if openSet.isEmpty then .ok ([], openSet)
  else
    match h : pop openSet with
    | .error e => .error e
    | .ok (.dangling, _) => .error .useAfterDestruction
    | .ok (.intact currentNode, rest) =>
      match extractLoop rest with
      | .error e => .error e
      | .ok (extracted, final) => .ok (currentNode :: extracted, final)
termination_by openSet.length
decreasing_by
  have := pop_length h
  omega

/-- The body of `dijkstra` up to its `return`: the final `searchState` and `result`. -/
def dijkstraRun (start goal : T) (neighborFn : T → List T) (costFn : T → T → C) :
    Except Fault (DijkstraState T C × List T) :=
  let result : List T := []
  let searchState : DijkstraState T C := { openSet := [] }
  let startNode : DijkstraNode T C := DijkstraNode.new start
  let _goalNode : DijkstraNode T C := DijkstraNode.new goal
  let startNode := { startNode with costToCome := (0 : C) }
  let searchState := { searchState with openSet := searchState.openSet ++ [startNode] }
  match extractLoop searchState.openSet with
  | .error e => .error e
  | .ok (_, openSet) =>
    let searchState := { searchState with openSet := openSet }
    let result := result ++ [start]
    let result := result ++ [goal]
    .ok (searchState, result)

/-- The function `dijkstra(start, goal, neighborFn, costFn)`: its `std::optional` result, which
the single `return result;` always engages. -/
def dijkstra (start goal : T) (neighborFn : T → List T) (costFn : T → T → C) :
    Except Fault (Option (List T)) :=
  match dijkstraRun start goal neighborFn costFn with
  | .error e => .error e
  | .ok (_, result) => .ok (some result)

/-- The open set when the loop of `dijkstra` is entered: `startNode`, built by the constructor
and given `costToCome = 0`, appended with `searchState.openSet.push_back(startNode)`. -/
def seedOpenSet (start : T) : List (DijkstraNode T C) :=
  [{ (DijkstraNode.new start : DijkstraNode T C) with costToCome := (0 : C) }]

/-- The open sets the loop `while (!searchState.openSet.empty()) { let currentNode = pop(); }`
calls `pop` with, in the order of the calls. -/
def popCalls (openSet : List (DijkstraNode T C)) : List (List (DijkstraNode T C)) :=
  if openSet.isEmpty then []
  else
    match h : pop openSet with
    | .error _ => [openSet]
    | .ok (.dangling, _) => [openSet]
    | .ok (.intact _, rest) => openSet :: popCalls rest
termination_by openSet.length
decreasing_by
  have := pop_length h
  omega

/-- The successive values of the open set during the loop: its value at every evaluation of the
loop condition, from the value the loop is entered with to the value it is left with, or to the
last value before the run ends in a fault. -/
def loopStates (openSet : List (DijkstraNode T C)) : List (List (DijkstraNode T C)) :=
  if openSet.isEmpty then [openSet]
  else
    match h : pop openSet with
    | .error _ => [openSet]
    | .ok (.dangling, _) => [openSet]
    | .ok (.intact _, rest) => openSet :: loopStates rest
termination_by openSet.length
decreasing_by
  have := pop_length h
  omega

end Driver

/-! ## Vocabulary of the specification

The notions the contract of the search is stated with: edges and paths of the implicit graph
given by `neighborFn`, the accumulated cost of a path under `costFn`, and reachability. -/

section Vocabulary

variable {T C : Type}

/-- A path of the implicit graph: every consecutive pair `(u, v)` is an edge reported by
`neighborFn`, i.e. `v` is an element of `neighborFn u`. -/
def IsPath (neighborFn : T → List T) (p : List T) : Prop :=
  List.Chain' (fun u v => v ∈ neighborFn u) p

instance instDecidableIsPath [DecidableEq T] (neighborFn : T → List T) (p : List T) :
    Decidable (IsPath neighborFn p) :=
  inferInstanceAs (Decidable (List.Chain' (fun u v => v ∈ neighborFn u) p))

/-- A path from `start` to `goal`, both inclusive. -/
def IsPathFromTo (neighborFn : T → List T) (start goal : T) (p : List T) : Prop :=
  p.head? = some start ∧ p.getLast? = some goal ∧ IsPath neighborFn p

/-- The accumulated cost of a path: `costFn` summed over its consecutive pairs. -/
def pathCost [Zero C] [Add C] (costFn : T → T → C) : List T → C
  | u :: v :: rest => costFn u v + pathCost costFn (v :: rest)
  | _ => 0

/-- Reachability: some chain of `neighborFn` applications leads from `start` to `goal`. -/
def Reachable (neighborFn : T → List T) (start goal : T) : Prop :=
  Relation.ReflTransGen (fun u v => v ∈ neighborFn u) start goal

end Vocabulary

/-! ## Example graphs of the specification -/

/-- The vertices of the example scenarios. -/
inductive ExampleVertex where
  | A
  | B
  | C
  | D
deriving DecidableEq, Repr

/-- The example vertices are an enumeration, a trivially destructible type. -/
instance instVertexExampleVertex : Vertex ExampleVertex where
  triviallyDestructible := true

/-- A `std::string` vertex whose text is too long for the small-string buffer. -/
def longNameA : String := "vertex-with-a-long-name-A"

/-- A second `std::string` vertex with a long text. -/
def longNameB : String := "vertex-with-a-long-name-B"

/-- A graph of `std::string` vertices without edges. -/
def noStringNeighbors : String → List String :=
  fun _ => []

/-- A cost function on `std::string` vertices. -/
def unitStringCost : String → String → Nat :=
  fun _ _ => 1

/-- Scenario 1: the edges A→B, A→C and B→C. -/
def triangleNeighbors : ExampleVertex → List ExampleVertex
  | .A => [.B, .C]
  | .B => [.C]
  | _ => []

/-- Scenario 1: the edge costs A→B(1), A→C(4), B→C(1). -/
def triangleCost : ExampleVertex → ExampleVertex → Nat
  | .A, .B => 1
  | .A, .C => 4
  | .B, .C => 1
  | _, _ => 0

/-- Scenario 2: a graph without edges. -/
def noNeighbors : ExampleVertex → List ExampleVertex :=
  fun _ => []

/-- A cost function for graphs whose edge costs do not matter. -/
def unitCost : ExampleVertex → ExampleVertex → Nat :=
  fun _ _ => 1

/-- An open set in heap order for the witnesses: three nodes with costs 1, 5 and 3. -/
def exampleHeap : List (DijkstraNode ExampleVertex Nat) :=
  [ { data := .A, parent := none, costToCome := 1, isOpen := true, isClosed := false },
    { data := .B, parent := none, costToCome := 5, isOpen := true, isClosed := false },
    { data := .C, parent := none, costToCome := 3, isOpen := true, isClosed := false } ]

/-- A heap-ordered open set holding two entries for vertex A, with costs 1 and 5. -/
def duplicateOpenSet : List (DijkstraNode ExampleVertex Nat) :=
  [ { data := .A, parent := none, costToCome := 1, isOpen := true, isClosed := false },
    { data := .A, parent := none, costToCome := 5, isOpen := true, isClosed := false } ]

/-- An open, non-closed node for vertex A with cost 7. -/
def costSevenNode : DijkstraNode ExampleVertex Nat :=
  { data := .A, parent := none, costToCome := 7, isOpen := true, isClosed := false }

/-- An open, non-closed node for vertex B with cost 9. -/
def costNineNode : DijkstraNode ExampleVertex Nat :=
  { data := .B, parent := none, costToCome := 9, isOpen := true, isClosed := false }

/-- An open set holding one entry, for vertex A with cost 1. -/
def singleOpenSet : List (DijkstraNode ExampleVertex Nat) :=
  [ { data := .A, parent := none, costToCome := 1, isOpen := true, isClosed := false } ]

/-- A node for vertex A with cost 5 whose `isOpen` flag is not set. -/
def unopenedNode : DijkstraNode ExampleVertex Nat :=
  { data := .A, parent := none, costToCome := 5, isOpen := false, isClosed := false }

/-- A node for vertex D with cost 0 whose `isOpen` flag is not set. -/
def unopenedNodeD : DijkstraNode ExampleVertex Nat :=
  { data := .D, parent := none, costToCome := 0, isOpen := false, isClosed := false }

/-- The cost type `unsigned char` (8 bits), whose `std::numeric_limits<C>::max()` is 255. -/
instance instArithmeticByte : Arithmetic (Fin 256) where
  numericLimitsMax := 255

/-! ## The driver -/

section DriverFacts

variable {T C : Type} [Arithmetic C] [Vertex T]

theorem pop_singleton (htriv : Vertex.triviallyDestructible T = true) (x : DijkstraNode T C) :
    pop [x] = .ok (.intact { x with isClosed := true }, []) := by
  unfold pop
  simp only [pop_heap, List.length_singleton, Nat.lt_irrefl, if_false, List.getLast?_singleton,
    htriv, if_true, List.dropLast_single]

theorem pop_singleton_dangling (hdtor : Vertex.triviallyDestructible T = false)
    (x : DijkstraNode T C) : pop [x] = .ok (.dangling, []) := by
  unfold pop
  simp only [pop_heap, List.length_singleton, Nat.lt_irrefl, if_false, List.getLast?_singleton,
    hdtor, Bool.false_eq_true, List.dropLast_single]

theorem extractLoop_nil : extractLoop ([] : List (DijkstraNode T C)) = .ok ([], []) := by
  rw [extractLoop]
  rfl

theorem extractLoop_singleton (htriv : Vertex.triviallyDestructible T = true)
    (x : DijkstraNode T C) :
    extractLoop [x] = .ok ([{ x with isClosed := true }], []) := by
  rw [extractLoop]
  simp only [List.isEmpty_cons, Bool.false_eq_true, if_false]
  split
  · rename_i e h
    rw [pop_singleton htriv] at h
    cases h
  · rename_i rest h
    rw [pop_singleton htriv] at h
    cases h
  · rename_i cur rest h
    rw [pop_singleton htriv] at h
    cases h
    rw [extractLoop_nil]

theorem extractLoop_singleton_dangling (hdtor : Vertex.triviallyDestructible T = false)
    (x : DijkstraNode T C) : extractLoop [x] = .error .useAfterDestruction := by
  rw [extractLoop]
  simp only [List.isEmpty_cons, Bool.false_eq_true, if_false]
  split
  · rename_i e h
    rw [pop_singleton_dangling hdtor] at h
    cases h
  · rfl
  · rename_i cur rest h
    rw [pop_singleton_dangling hdtor] at h
    cases h

theorem dijkstraRun_eq (htriv : Vertex.triviallyDestructible T = true) (start goal : T)
    (neighborFn : T → List T) (costFn : T → T → C) :
    dijkstraRun start goal neighborFn costFn = .ok ({ openSet := [] }, [start, goal]) := by
  unfold dijkstraRun
  simp only [List.nil_append]
  rw [extractLoop_singleton htriv]
  rfl

theorem dijkstra_eq (htriv : Vertex.triviallyDestructible T = true) (start goal : T)
    (neighborFn : T → List T) (costFn : T → T → C) :
    dijkstra start goal neighborFn costFn = .ok (some [start, goal]) := by
  unfold dijkstra
  rw [dijkstraRun_eq htriv]

theorem dijkstraRun_fault (hdtor : Vertex.triviallyDestructible T = false) (start goal : T)
    (neighborFn : T → List T) (costFn : T → T → C) :
    dijkstraRun start goal neighborFn costFn = .error .useAfterDestruction := by
  unfold dijkstraRun
  simp only [List.nil_append]
  rw [extractLoop_singleton_dangling hdtor]

theorem dijkstra_fault (hdtor : Vertex.triviallyDestructible T = false) (start goal : T)
    (neighborFn : T → List T) (costFn : T → T → C) :
    dijkstra start goal neighborFn costFn = .error .useAfterDestruction := by
  unfold dijkstra
  rw [dijkstraRun_fault hdtor]

end DriverFacts

/-- Claim C1, evaluated on scenario 1 of the specification (edges A→B(1), A→C(4), B→C(1)):
`dijkstra(A, C)` returns the path `[A, C]` of accumulated cost 4, although `[A, B, C]` is a path
from A to C of accumulated cost 2. The returned path is not a cheapest one. -/
theorem dijkstra_triangle_not_optimal :
    dijkstra ExampleVertex.A ExampleVertex.C triangleNeighbors triangleCost
        = .ok (some [ExampleVertex.A, ExampleVertex.C]) ∧
      pathCost triangleCost [ExampleVertex.A, ExampleVertex.C] = 4 ∧
      IsPathFromTo triangleNeighbors ExampleVertex.A ExampleVertex.C
        [ExampleVertex.A, ExampleVertex.B, ExampleVertex.C] ∧
      pathCost triangleCost [ExampleVertex.A, ExampleVertex.B, ExampleVertex.C] = 2 := by
  refine ⟨dijkstra_eq rfl _ _ _ _, rfl, ⟨rfl, rfl, ?_⟩, rfl⟩
  simp [IsPath, triangleNeighbors]

/-- Claim C2, evaluated on a graph without edges: `dijkstra(A, B)` returns the path `[A, B]`,
whose only consecutive pair `(A, B)` is not an edge, as B is not reported by `neighborFn(A)`. -/
theorem dijkstra_fabricates_edge :
    dijkstra ExampleVertex.A ExampleVertex.B noNeighbors unitCost
        = .ok (some [ExampleVertex.A, ExampleVertex.B]) ∧
      ExampleVertex.B ∉ noNeighbors ExampleVertex.A ∧
      ¬ IsPath noNeighbors [ExampleVertex.A, ExampleVertex.B] := by
  refine ⟨dijkstra_eq rfl _ _ _ _, ?_, ?_⟩ <;> simp [IsPath, noNeighbors]

/-- Claim C3, evaluated at `start = goal = A`: `dijkstra(A, A)` returns the two-element sequence
`[A, A]`, not the single-element path `[A]`. -/
theorem dijkstra_same_vertex_two_elements :
    dijkstra ExampleVertex.A ExampleVertex.A triangleNeighbors triangleCost
        = .ok (some [ExampleVertex.A, ExampleVertex.A]) ∧
      dijkstra ExampleVertex.A ExampleVertex.A triangleNeighbors triangleCost
        ≠ .ok (some [ExampleVertex.A]) := by
  refine ⟨dijkstra_eq rfl _ _ _ _, ?_⟩
  rw [dijkstra_eq rfl]
  intro h
  cases h

/-- Claim C4, evaluated on scenario 2 (vertices A and B, no edges): B is not reachable from A,
yet `dijkstra(A, B)` returns the present result `[A, B]` rather than the absent one. -/
theorem dijkstra_unreachable_present :
    ¬ Reachable noNeighbors ExampleVertex.A ExampleVertex.B ∧
      dijkstra ExampleVertex.A ExampleVertex.B noNeighbors unitCost
        = .ok (some [ExampleVertex.A, ExampleVertex.B]) ∧
      dijkstra ExampleVertex.A ExampleVertex.B noNeighbors unitCost ≠ .ok none := by
  refine ⟨?_, dijkstra_eq rfl _ _ _ _, ?_⟩
  · intro h
    rcases Relation.ReflTransGen.cases_head h with h | ⟨c, hc, _⟩
    · cases h
    · simp [noNeighbors] at hc
  · rw [dijkstra_eq rfl]
    intro h
    cases h

/-- Claim C5, evaluated for `std::string` vertices with long names and a graph without edges:
the run of `dijkstra` does not return `[start, goal]`. The first call of `pop` hands back a
dangling node, and the run ends in the fault when the loop body destroys it. -/
theorem dijkstra_string_vertex_faults :
    pop (seedOpenSet longNameA : List (DijkstraNode String Nat)) = .ok (.dangling, []) ∧
      dijkstra longNameA longNameB noStringNeighbors unitStringCost
        = .error .useAfterDestruction ∧
      dijkstra longNameA longNameB noStringNeighbors unitStringCost
        ≠ .ok (some [longNameA, longNameB]) := by
  refine ⟨pop_singleton_dangling rfl _, dijkstra_fault rfl _ _ _ _, ?_⟩
  rw [dijkstra_fault rfl]
  intro h
  cases h

/-- Claim C6: whenever `dijkstra` returns a path, the path is non-empty, its first element is
`start` and its last element is `goal`. -/
theorem dijkstra_path_endpoints {T C : Type} [Arithmetic C] [Vertex T]
    (start goal : T) (neighborFn : T → List T) (costFn : T → T → C) (p : List T)
    (h : dijkstra start goal neighborFn costFn = .ok (some p)) :
    p ≠ [] ∧ p.head? = some start ∧ p.getLast? = some goal := by
  cases htriv : Vertex.triviallyDestructible T with
  | false =>
    rw [dijkstra_fault htriv] at h
    cases h
  | true =>
    rw [dijkstra_eq htriv] at h
    cases h
    exact ⟨by simp, rfl, rfl⟩

/-- Witness of claim C6 on scenario 1: the call `dijkstra(A, C)` returns `[A, C]`. -/
theorem dijkstra_path_endpoints_witness :
    dijkstra ExampleVertex.A ExampleVertex.C triangleNeighbors triangleCost
        = .ok (some [ExampleVertex.A, ExampleVertex.C]) ∧
      ([ExampleVertex.A, ExampleVertex.C] ≠ [] ∧
        [ExampleVertex.A, ExampleVertex.C].head? = some ExampleVertex.A ∧
        [ExampleVertex.A, ExampleVertex.C].getLast? = some ExampleVertex.C) :=
  ⟨dijkstra_eq rfl _ _ _ _,
    dijkstra_path_endpoints ExampleVertex.A ExampleVertex.C triangleNeighbors triangleCost
      [ExampleVertex.A, ExampleVertex.C] (dijkstra_eq rfl _ _ _ _)⟩

/-! ## Positions

What the exchanges of the heap algorithms do to the individual positions of the vector. -/

section Positions

variable {α : Type}

theorem getElem?_swapAt_of_ne (l : List α) {i j k : Nat} (hi : k ≠ i) (hj : k ≠ j) :
    (swapAt l i j)[k]? = l[k]? := by
  unfold swapAt
  split
  · rw [List.getElem?_set_ne (Ne.symm hj), List.getElem?_set_ne (Ne.symm hi)]
  · rfl

theorem getElem?_swapAt_right (l : List α) {i j : Nat} (hi : i < l.length) (hj : j < l.length) :
    (swapAt l i j)[j]? = l[i]? := by
  unfold swapAt
  rw [List.getElem?_eq_getElem hi, List.getElem?_eq_getElem hj]
  simp only
  rw [List.getElem?_set_self (by simpa using hj)]

theorem getElem?_swapAt_left (l : List α) {i j : Nat} (hi : i < l.length) (hj : j < l.length) :
    (swapAt l i j)[i]? = l[j]? := by
  unfold swapAt
  rw [List.getElem?_eq_getElem hi, List.getElem?_eq_getElem hj]
  simp only
  by_cases hij : i = j
  · subst hij
    rw [List.getElem?_set_self (by simpa using hj)]
  · rw [List.getElem?_set_ne (Ne.symm hij), List.getElem?_set_self hi]

theorem largerChild_eq (comp : α → α → Bool) (len : Nat) (l : List α) (start : Nat) :
    largerChild comp len l start = 2 * start + 1 ∨
      (largerChild comp len l start = 2 * start + 2 ∧ 2 * start + 2 < len) := by
  unfold largerChild
  simp only
  split
  · rename_i h
    exact Or.inr ⟨rfl, h.1⟩
  · exact Or.inl rfl

theorem largerChild_lt (comp : α → α → Bool) (len : Nat) (l : List α) (start : Nat)
    (h : ¬ (len < 2 ∨ (len - 2) / 2 < start)) : largerChild comp len l start < len := by
  rcases largerChild_eq comp len l start with h1 | ⟨h1, h2⟩ <;> omega

theorem sift_down_getElem?_of_le (comp : α → α → Bool) (len fuel : Nat) (l : List α)
    (start k : Nat) (hk : len ≤ k) : (sift_down comp len fuel l start)[k]? = l[k]? := by
  induction fuel generalizing l start with
  | zero => rfl
  | succ fuel ih =>
    simp only [sift_down]
    split
    · rfl
    · rename_i h
      have hc := largerChild_lt comp len l start h
      have hs : start < largerChild comp len l start := by
        rcases largerChild_eq comp len l start with h1 | ⟨h1, _⟩ <;> omega
      split
      · rfl
      · rw [ih, getElem?_swapAt_of_ne] <;> omega

theorem pop_heap_getLast? (comp : α → α → Bool) (l : List α) :
    (pop_heap comp l).getLast? = l.head? := by
  unfold pop_heap
  split
  · rename_i h
    rw [List.getLast?_eq_getElem?, sift_down_length, swapAt_length,
      sift_down_getElem?_of_le _ _ _ _ _ _ (Nat.le_refl _),
      getElem?_swapAt_right l (by omega) (by omega), List.head?_eq_getElem?]
  · rename_i h
    match l, h with
    | [], _ => rfl
    | [x], _ => rfl
    | _ :: _ :: _, h => simp at h

theorem is_heap_iff (comp : α → α → Bool) (l : List α) :
    is_heap comp l = true ↔
      ∀ i, 0 < i → i < l.length → compAt comp l ((i - 1) / 2) i = false := by
  unfold is_heap
  rw [List.all_eq_true]
  constructor
  · intro h i hpos hlt
    have := h i (List.mem_range.mpr hlt)
    simp only [Bool.or_eq_true, beq_iff_eq, Bool.not_eq_true'] at this
    rcases this with h0 | h1
    · omega
    · exact h1
  · intro h i hi
    have hlt := List.mem_range.mp hi
    simp only [Bool.or_eq_true, beq_iff_eq, Bool.not_eq_true']
    by_cases h0 : i = 0
    · exact Or.inl h0
    · exact Or.inr (h i (by omega) hlt)
end Positions

/-! ## The bounds on the number of exchanges

The bound passed to `sift_down` and `sift_up` never cuts a run short: any bound of at least
`len - start` exchanges (for `sift_up`: at least `i`) gives the same result. -/

section Bounds

variable {α : Type}

theorem sift_down_stop (comp : α → α → Bool) (len fuel : Nat) (l : List α) (start : Nat)
    (h : len ≤ start) : sift_down comp len fuel l start = l := by
  cases fuel with
  | zero => rfl
  | succ fuel =>
    simp only [sift_down]
    rw [if_pos (by omega)]

theorem sift_down_bound (comp : α → α → Bool) (len fuel1 fuel2 : Nat) (l : List α)
    (start : Nat) (h1 : len - start ≤ fuel1) (h2 : len - start ≤ fuel2) :
    sift_down comp len fuel1 l start = sift_down comp len fuel2 l start := by
  induction fuel1 generalizing fuel2 l start with
  | zero => rw [sift_down_stop _ _ _ _ _ (by omega), sift_down_stop _ _ _ _ _ (by omega)]
  | succ fuel1 ih =>
    cases fuel2 with
    | zero => rw [sift_down_stop _ _ _ _ _ (by omega), sift_down_stop _ _ _ _ _ (by omega)]
    | succ fuel2 =>
      simp only [sift_down]
      split
      · rfl
      · rename_i h
        have hc := largerChild_lt comp len l start h
        have hs : start < largerChild comp len l start := by
          rcases largerChild_eq comp len l start with h3 | ⟨h3, _⟩ <;> omega
        split
        · rfl
        · exact ih _ _ _ (by omega) (by omega)

theorem sift_up_bound (comp : α → α → Bool) (fuel1 fuel2 : Nat) (l : List α) (i : Nat)
    (h1 : i ≤ fuel1) (h2 : i ≤ fuel2) :
    sift_up comp fuel1 l i = sift_up comp fuel2 l i := by
  induction fuel1 generalizing fuel2 l i with
  | zero =>
    have hi : i = 0 := by omega
    subst hi
    cases fuel2 <;> simp [sift_up]
  | succ fuel1 ih =>
    cases fuel2 with
    | zero =>
      have hi : i = 0 := by omega
      subst hi
      simp [sift_up]
    | succ fuel2 =>
      simp only [sift_up]
      split
      · rfl
      · split
        · exact ih _ _ _ (by omega) (by omega)
        · rfl

end Bounds

section FrontMinimum

variable {T C : Type} [Arithmetic C]

theorem heap_front_le (l : List (DijkstraNode T C)) (h : is_heap sortNodes l = true)
    (front : DijkstraNode T C) (hf : l[0]? = some front) (i : Nat) :
    ∀ r, l[i]? = some r → front.costToCome ≤ r.costToCome := by
  induction i using Nat.strong_induction_on with
  | _ i ih =>
    intro r hr
    by_cases h0 : i = 0
    · subst h0
      rw [hf] at hr
      cases hr
      exact le_refl _
    · obtain ⟨hi, hri⟩ := List.getElem?_eq_some_iff.mp hr
      have hp : (i - 1) / 2 < i := by omega
      have hpl : (i - 1) / 2 < l.length := by omega
      have h1 := ih _ hp l[(i - 1) / 2] (List.getElem?_eq_getElem hpl)
      have h2 := (is_heap_iff _ _).mp h i (by omega) hi
      unfold compAt at h2
      rw [List.getElem?_eq_getElem hpl, hr] at h2
      simp only [sortNodes, gt_iff_lt, decide_eq_false_iff_not, not_lt] at h2
      exact le_trans h1 h2

end FrontMinimum

/-- On a non-empty open set in heap order, `pop` removes the front record, whose `costToCome`
is at most that of every record of the open set. With a trivially destructible vertex type the
node returned is that record with `isClosed` set; otherwise it is dangling. -/
theorem pop_front_minimum {T C : Type} [Arithmetic C] [Vertex T]
    (openSet : List (DijkstraNode T C)) (hne : openSet ≠ [])
    (hheap : is_heap sortNodes openSet = true) :
    ∃ popped rest front, pop openSet = .ok (popped, rest) ∧
      openSet.head? = some front ∧
      (∀ r ∈ openSet, front.costToCome ≤ r.costToCome) ∧
      (Vertex.triviallyDestructible T = true →
        popped = .intact { front with isClosed := true }) ∧
      (Vertex.triviallyDestructible T = false → popped = .dangling) := by
  obtain ⟨front, tail, rfl⟩ := List.exists_cons_of_ne_nil hne
  have hmin : ∀ r ∈ front :: tail, front.costToCome ≤ r.costToCome := by
    intro r hr
    obtain ⟨i, hi⟩ := List.mem_iff_getElem?.mp hr
    exact heap_front_le _ hheap front (by simp) i r hi
  cases htriv : Vertex.triviallyDestructible T with
  | true =>
    refine ⟨.intact { front with isClosed := true },
      (pop_heap sortNodes (front :: tail)).dropLast, front, ?_, rfl, hmin, fun _ => rfl,
      fun h => by cases h⟩
    unfold pop
    simp only [pop_heap_getLast?, List.head?_cons, htriv, if_true]
  | false =>
    refine ⟨.dangling, (pop_heap sortNodes (front :: tail)).dropLast, front, ?_, rfl, hmin,
      fun h => Bool.noConfusion h, fun _ => rfl⟩
    unfold pop
    simp only [pop_heap_getLast?, List.head?_cons, htriv, Bool.false_eq_true, if_false]

/-- Claim C8, evaluated for a `std::string` vertex: the open set `dijkstra` seeds for a start
vertex with a long name is non-empty and in heap order, and `pop` returns a dangling node for
it, not the front record with `isClosed` set and its vertex unchanged. -/
theorem pop_string_vertex_dangling :
    (seedOpenSet longNameA : List (DijkstraNode String Nat)) =
        [ { data := longNameA, parent := none, costToCome := 0, isOpen := false,
            isClosed := false } ] ∧
      is_heap sortNodes (seedOpenSet longNameA : List (DijkstraNode String Nat)) = true ∧
      pop (seedOpenSet longNameA : List (DijkstraNode String Nat)) = .ok (.dangling, []) ∧
      pop (seedOpenSet longNameA : List (DijkstraNode String Nat)) ≠
        .ok (.intact { data := longNameA, parent := none, costToCome := 0, isOpen := false,
                       isClosed := true }, []) := by
  refine ⟨rfl, by decide, pop_singleton_dangling rfl _, ?_⟩
  rw [seedOpenSet, pop_singleton_dangling rfl]
  intro h
  cases h

/-- Claim C9 (closed vertices never reopen): for a node with `isClosed` set, `push` is a no-op:
the open set after the call is the open set before it, and the node is unchanged. -/
theorem push_closed_noop {T C : Type} [DecidableEq T] [Arithmetic C]
    (openSet : List (DijkstraNode T C)) (n : DijkstraNode T C) (hclosed : n.isClosed = true) :
    push openSet n = (openSet, n) := by
  unfold push
  rw [if_pos hclosed]

/-- Witness of claim C9: pushing a closed node for vertex B onto the example open set. -/
theorem push_closed_noop_witness :
    push exampleHeap
        { data := ExampleVertex.B, parent := none, costToCome := 0, isOpen := true,
          isClosed := true }
      = (exampleHeap,
        { data := ExampleVertex.B, parent := none, costToCome := 0, isOpen := true,
          isClosed := true }) :=
  push_closed_noop exampleHeap _ rfl

/-! ## Permutations

The heap algorithms rearrange the vector: their result has the same elements, with the same
multiplicities. -/

section Permutations

variable {α : Type}

theorem swapAt_perm (l : List α) (i j : Nat) : List.Perm (swapAt l i j) l := by
  classical
  unfold swapAt
  split
  · rename_i x y hx hy
    obtain ⟨hi, rfl⟩ := List.getElem?_eq_some_iff.mp hx
    obtain ⟨hj, rfl⟩ := List.getElem?_eq_some_iff.mp hy
    rw [List.perm_iff_count]
    intro b
    rw [List.count_set _ _ _ _ (by simpa using hj), List.count_set _ _ _ _ hi]
    have h1 : (if l[i] == b then 1 else 0) ≤ l.count b := by
      split
      · rename_i h
        have : l[i] = b := by simpa using h
        exact List.count_pos_iff.mpr (this ▸ List.getElem_mem hi)
      · omega
    by_cases hij : i = j
    · subst hij
      simp only [List.getElem_set_self, beq_iff_eq] at h1 ⊢
      omega
    · rw [List.getElem_set_ne hij]
      omega
  · rfl

theorem sift_down_perm (comp : α → α → Bool) (len fuel : Nat) (l : List α) (start : Nat) :
    List.Perm (sift_down comp len fuel l start) l := by
  induction fuel generalizing l start with
  | zero => exact List.Perm.refl l
  | succ fuel ih =>
    simp only [sift_down]
    split
    · exact List.Perm.refl l
    · split
      · exact List.Perm.refl l
      · exact (ih _ _).trans (swapAt_perm l _ _)

theorem make_heap_loop_perm (comp : α → α → Bool) (len start : Nat) (l : List α) :
    List.Perm (make_heap_loop comp len start l) l := by
  induction start generalizing l with
  | zero => exact sift_down_perm comp len len l 0
  | succ start ih =>
    simp only [make_heap_loop]
    exact (ih _).trans (sift_down_perm comp len len l _)

theorem make_heap_perm (comp : α → α → Bool) (l : List α) : List.Perm (make_heap comp l) l := by
  unfold make_heap
  split
  · exact make_heap_loop_perm comp _ _ l
  · exact List.Perm.refl l

end Permutations

section DecreaseKey

variable {T C : Type}

theorem assignCost_eq (openSet : List (DijkstraNode T C)) (it : Nat) (c : C)
    (h : it < openSet.length) :
    assignCost openSet it c =
      openSet.take it ++ { openSet[it] with costToCome := c } :: openSet.drop (it + 1) := by
  unfold assignCost
  rw [List.getElem?_eq_getElem h]
  simp only
  rw [List.set_eq_take_append_cons_drop, if_pos h]

theorem assignCost_length (openSet : List (DijkstraNode T C)) (it : Nat) (c : C) :
    (assignCost openSet it c).length = openSet.length := by
  unfold assignCost
  split <;> simp

theorem assignCost_map_data (openSet : List (DijkstraNode T C)) (it : Nat) (c : C) :
    (assignCost openSet it c).map (fun f => f.data) = openSet.map (fun f => f.data) := by
  by_cases h : it < openSet.length
  · rw [assignCost_eq _ _ _ h]
    conv => rhs; rw [← List.take_append_drop it openSet, List.drop_eq_getElem_cons h]
    simp only [List.map_append, List.map_cons]
  · unfold assignCost
    rw [List.getElem?_eq_none (by omega)]

variable [DecidableEq T]

theorem find_if_lt (openSet : List (DijkstraNode T C)) (n : DijkstraNode T C)
    (hmem : ∃ f ∈ openSet, f.data = n.data) :
    find_if openSet (fun f => decide (n.data = f.data)) < openSet.length := by
  obtain ⟨f, hf, hd⟩ := hmem
  exact List.findIdx_lt_length_of_exists ⟨f, hf, by simp [hd]⟩

theorem find_if_data (openSet : List (DijkstraNode T C)) (n : DijkstraNode T C)
    (h : find_if openSet (fun f => decide (n.data = f.data)) < openSet.length) :
    (openSet[find_if openSet (fun f => decide (n.data = f.data))]).data = n.data := by
  unfold find_if at h ⊢
  exact (of_decide_eq_true (List.findIdx_getElem (w := h))).symm

theorem push_of_present [Arithmetic C] (openSet : List (DijkstraNode T C))
    (n : DijkstraNode T C)
    (hopen : n.isOpen = true) (hclosed : n.isClosed = false)
    (hmem : ∃ f ∈ openSet, f.data = n.data) :
    push openSet n =
      (make_heap sortNodes
        (assignCost openSet (find_if openSet (fun f => decide (n.data = f.data))) n.costToCome),
        n) := by
  have hlt := find_if_lt openSet n hmem
  unfold push
  simp only [hclosed, hopen, Bool.false_eq_true, if_false, if_true]
  rw [if_neg (by omega)]

end DecreaseKey


/-- Counterexample to claim C10 as stated: the open set `[(A, 1), (A, 5)]` is in heap order and
is what two calls of `push` with new nodes for A build. Pushing the open node `(A, 7)` updates
the first entry for A to cost 7 and `make_heap` then moves the entry `(A, 5)` to the front: the
first entry matching A carries cost 5 afterwards, not the pushed cost 7. -/
theorem push_first_match_counterexample :
    costSevenNode.isOpen = true ∧ costSevenNode.isClosed = false ∧
      (∃ f ∈ duplicateOpenSet, f.data = costSevenNode.data) ∧
      is_heap sortNodes duplicateOpenSet = true ∧
      duplicateOpenSet =
        (push
          (push [] { data := ExampleVertex.A, parent := none, costToCome := 1, isOpen := false,
                     isClosed := false }).1
          { data := ExampleVertex.A, parent := none, costToCome := 5, isOpen := false,
            isClosed := false }).1 ∧
      (push duplicateOpenSet costSevenNode).1 =
        [ { data := .A, parent := none, costToCome := 5, isOpen := true, isClosed := false },
          { data := .A, parent := none, costToCome := 7, isOpen := true, isClosed := false } ] ∧
      ((push duplicateOpenSet costSevenNode).1.find?
          (fun f => decide (costSevenNode.data = f.data))).map (fun f => f.costToCome)
        = some 5 ∧
      costSevenNode.costToCome = 7 := by
  refine ⟨rfl, rfl, ⟨_, List.mem_cons_self _ _, rfl⟩, ?_, ?_, ?_, ?_, rfl⟩ <;> decide

/-- Claim C10, amended (decrease-key, never a duplicate insert): when the open set holds an entry
for the vertex of an open, non-closed node `n`, `push` leaves `n` and the number of entries
unchanged, leaves the vertices of the open set unchanged as a multiset, and the new open set is a
rearrangement of the old one in which the entry that was the first match for `n.data` carries
`n.costToCome`. When the old open set holds exactly one entry for `n.data`, the first entry
matching `n.data` in the new open set carries `n.costToCome`. -/
theorem push_decrease_key {T C : Type} [DecidableEq T] [Arithmetic C]
    (openSet : List (DijkstraNode T C)) (n : DijkstraNode T C)
    (hopen : n.isOpen = true) (hclosed : n.isClosed = false)
    (hmem : ∃ f ∈ openSet, f.data = n.data) :
    (push openSet n).2 = n ∧
      (push openSet n).1.length = openSet.length ∧
      List.Perm ((push openSet n).1.map (fun f => f.data)) (openSet.map (fun f => f.data)) ∧
      List.Perm (push openSet n).1
        (assignCost openSet (find_if openSet (fun f => decide (n.data = f.data)))
          n.costToCome) ∧
      (∃ f, openSet[find_if openSet (fun f => decide (n.data = f.data))]? = some f ∧
        f.data = n.data ∧ { f with costToCome := n.costToCome } ∈ (push openSet n).1) ∧
      (openSet.countP (fun f => decide (f.data = n.data)) = 1 →
        ∃ e, (push openSet n).1.find? (fun f => decide (n.data = f.data)) = some e ∧
          e.costToCome = n.costToCome) := by
  have hlt := find_if_lt openSet n hmem
  have hdata := find_if_data openSet n hlt
  rw [push_of_present openSet n hopen hclosed hmem]
  simp only
  generalize hit : find_if openSet (fun f => decide (n.data = f.data)) = it at hlt hdata
  have hperm := make_heap_perm sortNodes (assignCost openSet it n.costToCome)
  have hin : { openSet[it] with costToCome := n.costToCome } ∈
      make_heap sortNodes (assignCost openSet it n.costToCome) := by
    rw [hperm.mem_iff, assignCost_eq _ _ _ hlt]
    simp
  refine ⟨trivial, ?_, ?_, hperm, ⟨openSet[it], List.getElem?_eq_getElem hlt, hdata, hin⟩, ?_⟩
  · rw [make_heap_length, assignCost_length]
  · rw [← assignCost_map_data openSet it n.costToCome]
    exact hperm.map _
  · intro hcount
    have hsome : ((make_heap sortNodes (assignCost openSet it n.costToCome)).find?
        (fun f => decide (n.data = f.data))).isSome = true := by
      rw [List.find?_isSome]
      exact ⟨_, hin, by simp [hdata]⟩
    obtain ⟨e, he⟩ := Option.isSome_iff_exists.mp hsome
    refine ⟨e, he, ?_⟩
    have hemem := (hperm.mem_iff).mp (List.mem_of_find?_eq_some he)
    have hedata : e.data = n.data := by
      have hq := List.find?_some he
      exact (of_decide_eq_true hq).symm
    rw [← List.take_append_drop it openSet, List.drop_eq_getElem_cons hlt, List.countP_append,
      List.countP_cons_of_pos _ _ (by simpa using hdata)] at hcount
    have htake : List.countP (fun f => decide (f.data = n.data)) (openSet.take it) = 0 := by omega
    have hdrop : List.countP (fun f => decide (f.data = n.data)) (openSet.drop (it + 1)) = 0 := by
      omega
    rw [List.countP_eq_zero] at htake hdrop
    rw [assignCost_eq _ _ _ hlt, List.mem_append, List.mem_cons] at hemem
    rcases hemem with h1 | h2 | h3
    · exact absurd (by simpa using hedata) (htake e h1)
    · rw [h2]
    · exact absurd (by simpa using hedata) (hdrop e h3)

/-- Witness of claim C10: the example open set, which holds one entry for vertex B, and an open
node for B with cost 2. -/
theorem push_decrease_key_witness :
    (push exampleHeap
        { data := ExampleVertex.B, parent := none, costToCome := 2, isOpen := true,
          isClosed := false }).1 =
      [ { data := .A, parent := none, costToCome := 1, isOpen := true, isClosed := false },
        { data := .B, parent := none, costToCome := 2, isOpen := true, isClosed := false },
        { data := .C, parent := none, costToCome := 3, isOpen := true, isClosed := false } ] ∧
      exampleHeap.countP (fun f => decide (f.data = ExampleVertex.B)) = 1 ∧
      ∃ e, (push exampleHeap
          { data := ExampleVertex.B, parent := none, costToCome := 2, isOpen := true,
            isClosed := false }).1.find? (fun f => decide (ExampleVertex.B = f.data)) = some e ∧
        e.costToCome = 2 :=
  ⟨by decide, by decide,
    (push_decrease_key exampleHeap
      { data := ExampleVertex.B, parent := none, costToCome := 2, isOpen := true,
        isClosed := false }
      rfl rfl ⟨_, List.mem_cons_of_mem _ (List.mem_cons_self _ _), rfl⟩).2.2.2.2.2 (by decide)⟩

/-! ## Insertion and extraction as rearrangements -/

section Rearrangements

variable {α : Type}

theorem sift_up_perm (comp : α → α → Bool) (fuel : Nat) (l : List α) (i : Nat) :
    List.Perm (sift_up comp fuel l i) l := by
  induction fuel generalizing l i with
  | zero => exact List.Perm.refl l
  | succ fuel ih =>
    simp only [sift_up]
    split
    · exact List.Perm.refl l
    · split
      · exact (ih _ _).trans (swapAt_perm l _ _)
      · exact List.Perm.refl l

theorem push_heap_perm (comp : α → α → Bool) (l : List α) : List.Perm (push_heap comp l) l :=
  sift_up_perm comp _ l _

theorem pop_heap_perm (comp : α → α → Bool) (l : List α) : List.Perm (pop_heap comp l) l := by
  unfold pop_heap
  split
  · exact (sift_down_perm _ _ _ _ _).trans (swapAt_perm l _ _)
  · exact List.Perm.refl l

end Rearrangements

section PushCases

variable {T C : Type}

theorem find_if_absent [DecidableEq T] (openSet : List (DijkstraNode T C))
    (n : DijkstraNode T C)
    (h : ∀ f ∈ openSet, f.data ≠ n.data) :
    find_if openSet (fun f => decide (n.data = f.data)) = openSet.length := by
  unfold find_if
  apply List.findIdx_eq_length_of_false
  intro f hf
  simpa using fun hd => h f hf hd.symm

theorem push_of_absent [DecidableEq T] [Arithmetic C] (openSet : List (DijkstraNode T C))
    (n : DijkstraNode T C)
    (hclosed : n.isClosed = false)
    (h : n.isOpen = false ∨ ∀ f ∈ openSet, f.data ≠ n.data) :
    push openSet n = pushNew openSet n := by
  unfold push
  simp only [hclosed, Bool.false_eq_true, if_false]
  split
  · rename_i hopen
    rcases h with h | h
    · rw [h] at hopen
      cases hopen
    · rw [if_pos (find_if_absent openSet n h)]
  · rfl

theorem pushNew_perm [Arithmetic C] (openSet : List (DijkstraNode T C))
    (n : DijkstraNode T C) :
    List.Perm (pushNew openSet n).1 (openSet ++ [{ n with isOpen := true }]) :=
  push_heap_perm sortNodes _

theorem unique_entry_eq [DecidableEq T] (openSet : List (DijkstraNode T C))
    (n : DijkstraNode T C)
    (hcount : openSet.countP (fun f => decide (f.data = n.data)) = 1)
    (it : Nat) (hlt : it < openSet.length) (hdata : (openSet[it]).data = n.data) :
    (∀ f ∈ openSet.take it, f.data ≠ n.data) ∧
      (∀ f ∈ openSet.drop (it + 1), f.data ≠ n.data) := by
  rw [← List.take_append_drop it openSet, List.drop_eq_getElem_cons hlt, List.countP_append,
    List.countP_cons_of_pos _ _ (by simpa using hdata)] at hcount
  have htake : List.countP (fun f => decide (f.data = n.data)) (openSet.take it) = 0 := by omega
  have hdrop : List.countP (fun f => decide (f.data = n.data)) (openSet.drop (it + 1)) = 0 := by
    omega
  rw [List.countP_eq_zero] at htake hdrop
  exact ⟨fun f hf => by simpa using htake f hf, fun f hf => by simpa using hdrop f hf⟩

end PushCases

/-- Counterexample to claim C11 as stated: the example open set holds one entry for vertex B, with
cost 5. Pushing the open node for B with cost 9, which is not below 5, overwrites the stored
cost: the entry for B carries cost 9 afterwards. -/
theorem push_raises_key_counterexample :
    costNineNode.isOpen = true ∧ costNineNode.isClosed = false ∧
      exampleHeap[1]? =
        some { data := ExampleVertex.B, parent := none, costToCome := 5, isOpen := true,
               isClosed := false } ∧
      exampleHeap.countP (fun f => decide (f.data = costNineNode.data)) = 1 ∧
      costNineNode.costToCome ≥ 5 ∧
      (push exampleHeap costNineNode).1 =
        [ { data := .A, parent := none, costToCome := 1, isOpen := true, isClosed := false },
          { data := .B, parent := none, costToCome := 9, isOpen := true, isClosed := false },
          { data := .C, parent := none, costToCome := 3, isOpen := true, isClosed := false } ] ∧
      ((push exampleHeap costNineNode).1.find?
          (fun f => decide (costNineNode.data = f.data))).map (fun f => f.costToCome)
        = some 9 := by
  refine ⟨rfl, rfl, rfl, ?_, ?_, ?_, ?_⟩ <;> decide

/-- Claim C11, amended: when the open set holds exactly one entry `e` for the vertex of an open,
non-closed node `n`, then after `push` every entry for that vertex carries `n.costToCome`,
whatever cost was stored before: `push` assigns without comparing the costs. When
`n.costToCome = e.costToCome` no record is mutated: the new open set is a rearrangement of the
old one. -/
theorem push_overwrites_cost {T C : Type} [DecidableEq T] [Arithmetic C]
    (openSet : List (DijkstraNode T C)) (n e : DijkstraNode T C)
    (hopen : n.isOpen = true) (hclosed : n.isClosed = false)
    (he : e ∈ openSet) (hd : e.data = n.data)
    (hcount : openSet.countP (fun f => decide (f.data = n.data)) = 1) :
    (∀ f ∈ (push openSet n).1, f.data = n.data → f.costToCome = n.costToCome) ∧
      (∃ f ∈ (push openSet n).1, f.data = n.data) ∧
      (n.costToCome = e.costToCome → List.Perm (push openSet n).1 openSet) := by
  have hmem : ∃ f ∈ openSet, f.data = n.data := ⟨e, he, hd⟩
  have hlt := find_if_lt openSet n hmem
  have hdata := find_if_data openSet n hlt
  rw [push_of_present openSet n hopen hclosed hmem]
  simp only
  generalize find_if openSet (fun f => decide (n.data = f.data)) = it at hlt hdata
  have hperm := make_heap_perm sortNodes (assignCost openSet it n.costToCome)
  obtain ⟨htake, hdrop⟩ := unique_entry_eq openSet n hcount it hlt hdata
  have hsplit : openSet = openSet.take it ++ openSet[it] :: openSet.drop (it + 1) := by
    rw [← List.drop_eq_getElem_cons hlt, List.take_append_drop]
  refine ⟨?_, ?_, ?_⟩
  · intro f hf hfd
    rw [hperm.mem_iff, assignCost_eq _ _ _ hlt, List.mem_append, List.mem_cons] at hf
    rcases hf with h1 | h2 | h3
    · exact absurd hfd (htake f h1)
    · rw [h2]
    · exact absurd hfd (hdrop f h3)
  · refine ⟨{ openSet[it] with costToCome := n.costToCome }, ?_, hdata⟩
    rw [hperm.mem_iff, assignCost_eq _ _ _ hlt]
    simp
  · intro hcost
    have hee : e = openSet[it] := by
      rw [hsplit, List.mem_append, List.mem_cons] at he
      rcases he with h1 | h2 | h3
      · exact absurd hd (htake e h1)
      · exact h2
      · exact absurd hd (hdrop e h3)
    have hsame : assignCost openSet it n.costToCome = openSet := by
      rw [assignCost_eq _ _ _ hlt, hcost, hee]
      exact hsplit.symm
    rw [hsame]
    exact make_heap_perm sortNodes openSet

/-- Witness of claim C11: the example open set and an open node for B with the stored cost 5. -/
theorem push_overwrites_cost_witness :
    (∀ f ∈ (push exampleHeap
          { data := ExampleVertex.B, parent := none, costToCome := 5, isOpen := true,
            isClosed := false }).1, f.data = ExampleVertex.B → f.costToCome = 5) ∧
      (∃ f ∈ (push exampleHeap
          { data := ExampleVertex.B, parent := none, costToCome := 5, isOpen := true,
            isClosed := false }).1, f.data = ExampleVertex.B) ∧
      List.Perm (push exampleHeap
          { data := ExampleVertex.B, parent := none, costToCome := 5, isOpen := true,
            isClosed := false }).1 exampleHeap :=
  have h := push_overwrites_cost exampleHeap
    { data := ExampleVertex.B, parent := none, costToCome := 5, isOpen := true,
      isClosed := false }
    { data := ExampleVertex.B, parent := none, costToCome := 5, isOpen := true,
      isClosed := false }
    rfl rfl (List.mem_cons_of_mem _ (List.mem_cons_self _ _)) rfl (by decide)
  ⟨h.1, h.2.1, h.2.2 rfl⟩

/-- Counterexample to claim C12 as stated: the open set holds one entry, for vertex A. Pushing a
node for A whose `isOpen` flag is not set appends a second entry for A. -/
theorem push_duplicates_vertex_counterexample :
    (singleOpenSet.map (fun f => f.data)).Nodup ∧
      (push singleOpenSet unopenedNode).1 = duplicateOpenSet ∧
      ¬ ((push singleOpenSet unopenedNode).1.map (fun f => f.data)).Nodup := by
  refine ⟨?_, ?_, ?_⟩ <;> decide

/-- Claim C12, amended (frontier uniqueness): when no two entries of the open set have equal
vertices and the node `n` is closed, or flagged open, or its vertex has no entry in the open set,
then no two entries of the open set after `push` have equal vertices. -/
theorem push_preserves_unique_vertices {T C : Type} [DecidableEq T] [Arithmetic C]
    (openSet : List (DijkstraNode T C)) (n : DijkstraNode T C)
    (hnodup : (openSet.map (fun f => f.data)).Nodup)
    (hflag : n.isClosed = true ∨ n.isOpen = true ∨ ∀ f ∈ openSet, f.data ≠ n.data) :
    ((push openSet n).1.map (fun f => f.data)).Nodup := by
  by_cases hclosed : n.isClosed = true
  · unfold push
    rw [if_pos hclosed]
    exact hnodup
  · have hclosed2 : n.isClosed = false := by simpa using hclosed
    by_cases hmem : ∃ f ∈ openSet, f.data = n.data
    · have hopen : n.isOpen = true := by
        rcases hflag with h | h | h
        · exact absurd h hclosed
        · exact h
        · obtain ⟨f, hf, hfd⟩ := hmem
          exact absurd hfd (h f hf)
      rw [push_of_present openSet n hopen hclosed2 hmem]
      simp only
      have hperm := (make_heap_perm sortNodes
        (assignCost openSet (find_if openSet (fun f => decide (n.data = f.data)))
          n.costToCome)).map (fun f => f.data)
      rw [assignCost_map_data] at hperm
      exact hperm.nodup_iff.mpr hnodup
    · have habs : ∀ f ∈ openSet, f.data ≠ n.data := fun f hf hd => hmem ⟨f, hf, hd⟩
      rw [push_of_absent openSet n hclosed2 (Or.inr habs)]
      have hperm := (pushNew_perm openSet n).map (fun f => f.data)
      rw [hperm.nodup_iff, List.map_append, List.map_cons, List.map_nil]
      rw [List.nodup_append]
      refine ⟨hnodup, List.nodup_singleton _, ?_⟩
      intro a ha hb
      rw [List.mem_singleton] at hb
      subst hb
      obtain ⟨f, hf, hfd⟩ := List.mem_map.mp ha
      exact habs f hf hfd

/-- Witness of claim C12: the example open set, with one entry each for A, B and C, and the open
node for B with cost 9. -/
theorem push_preserves_unique_vertices_witness :
    (exampleHeap.map (fun f => f.data)).Nodup ∧
      ((push exampleHeap costNineNode).1.map (fun f => f.data)).Nodup :=
  ⟨by decide, push_preserves_unique_vertices exampleHeap costNineNode (by decide)
    (Or.inr (Or.inl rfl))⟩

/-! ## The extract loop -/

section LoopFacts

variable {T C : Type} [Arithmetic C] [Vertex T]

theorem pop_ok_of_ne_nil (openSet : List (DijkstraNode T C)) (hne : openSet ≠ []) :
    ∃ front tail popped, openSet = front :: tail ∧
      pop openSet = .ok (popped, (pop_heap sortNodes openSet).dropLast) ∧
      (Vertex.triviallyDestructible T = true →
        popped = .intact { front with isClosed := true }) ∧
      (Vertex.triviallyDestructible T = false → popped = .dangling) := by
  obtain ⟨front, tail, rfl⟩ := List.exists_cons_of_ne_nil hne
  cases htriv : Vertex.triviallyDestructible T with
  | true =>
    refine ⟨front, tail, .intact { front with isClosed := true }, rfl, ?_, fun _ => rfl,
      fun h => Bool.noConfusion h⟩
    unfold pop
    simp only [pop_heap_getLast?, List.head?_cons, htriv, if_true]
  | false =>
    refine ⟨front, tail, .dangling, rfl, ?_, fun h => Bool.noConfusion h, fun _ => rfl⟩
    unfold pop
    simp only [pop_heap_getLast?, List.head?_cons, htriv, Bool.false_eq_true, if_false]

theorem pop_error_iff (openSet : List (DijkstraNode T C)) :
    (∃ e, pop openSet = .error e) ↔ openSet = [] := by
  constructor
  · rintro ⟨e, he⟩
    by_contra hne
    obtain ⟨front, tail, popped, _, hpop, _, _⟩ := pop_ok_of_ne_nil openSet hne
    rw [hpop] at he
    cases he
  · rintro rfl
    exact ⟨.emptyFrontierAccess, rfl⟩

theorem extractLoop_ok (htriv : Vertex.triviallyDestructible T = true)
    (openSet : List (DijkstraNode T C)) :
    ∃ extracted, extractLoop openSet = .ok (extracted, []) ∧
      extracted.length = openSet.length := by
  obtain ⟨k, hk⟩ : ∃ k, openSet.length = k := ⟨_, rfl⟩
  induction k using Nat.strong_induction_on generalizing openSet with
  | _ k ih =>
    by_cases hne : openSet = []
    · subst hne
      exact ⟨[], extractLoop_nil, rfl⟩
    · obtain ⟨front, tail, popped, _, hpop, hint, _⟩ := pop_ok_of_ne_nil openSet hne
      rw [hint htriv] at hpop
      have hlen := pop_length hpop
      obtain ⟨extracted, hex, hexlen⟩ :=
        ih _ (by omega) ((pop_heap sortNodes openSet).dropLast) rfl
      refine ⟨{ front with isClosed := true } :: extracted, ?_, by simp; omega⟩
      rw [extractLoop]
      have hemp : openSet.isEmpty = false := by
        cases openSet with
        | nil => exact absurd rfl hne
        | cons _ _ => rfl
      simp only [hemp, Bool.false_eq_true, if_false]
      split
      · rename_i e he
        rw [hpop] at he
        cases he
      · rename_i rest he
        rw [hpop] at he
        cases he
      · rename_i cur rest he
        rw [hpop] at he
        cases he
        rw [hex]

theorem extractLoop_ne_emptyFrontierAccess (openSet : List (DijkstraNode T C)) :
    extractLoop openSet ≠ .error .emptyFrontierAccess := by
  obtain ⟨k, hk⟩ : ∃ k, openSet.length = k := ⟨_, rfl⟩
  induction k using Nat.strong_induction_on generalizing openSet with
  | _ k ih =>
    rw [extractLoop]
    split
    · intro h
      cases h
    · rename_i hemp
      split
      · rename_i e he
        have hnil : openSet = [] := (pop_error_iff openSet).mp ⟨e, he⟩
        subst hnil
        exact absurd rfl hemp
      · intro h
        cases h
      · rename_i cur rest he
        have hlen := pop_length he
        have hrest := ih _ (by omega) rest rfl
        split
        · rename_i e hex
          intro h
          cases h
          exact hrest hex
        · intro h
          cases h

theorem dijkstra_ne_emptyFrontierAccess (start goal : T) (neighborFn : T → List T)
    (costFn : T → T → C) :
    dijkstra start goal neighborFn costFn ≠ .error .emptyFrontierAccess := by
  cases htriv : Vertex.triviallyDestructible T with
  | true =>
    rw [dijkstra_eq htriv]
    intro h
    cases h
  | false =>
    rw [dijkstra_fault htriv]
    intro h
    cases h

theorem popCalls_ne_nil (openSet : List (DijkstraNode T C)) :
    ∀ s ∈ popCalls openSet, s ≠ [] := by
  obtain ⟨k, hk⟩ : ∃ k, openSet.length = k := ⟨_, rfl⟩
  induction k using Nat.strong_induction_on generalizing openSet with
  | _ k ih =>
    intro s hs
    rw [popCalls] at hs
    split at hs
    · cases hs
    · rename_i hemp
      have hne : openSet ≠ [] := by
        intro hnil
        subst hnil
        exact hemp rfl
      split at hs
      · rw [List.mem_singleton] at hs
        rw [hs]
        exact hne
      · rw [List.mem_singleton] at hs
        rw [hs]
        exact hne
      · rename_i cur rest he
        rw [List.mem_cons] at hs
        rcases hs with hs | hs
        · rw [hs]
          exact hne
        · have hlen := pop_length he
          exact ih _ (by omega) rest rfl s hs

theorem popCalls_nil : popCalls ([] : List (DijkstraNode T C)) = [] := by
  rw [popCalls]
  rfl

theorem loopStates_nil : loopStates ([] : List (DijkstraNode T C)) = [[]] := by
  rw [loopStates]
  rfl

theorem popCalls_singleton (x : DijkstraNode T C) : popCalls [x] = [[x]] := by
  rw [popCalls]
  simp only [List.isEmpty_cons, Bool.false_eq_true, if_false]
  split
  · rfl
  · rfl
  · rename_i cur rest he
    have hlen := pop_length he
    have hrest : rest = [] := List.length_eq_zero.mp (by simpa using hlen)
    rw [hrest, popCalls_nil]

theorem popCalls_seedOpenSet (start : T) :
    popCalls (seedOpenSet start : List (DijkstraNode T C)) = [seedOpenSet start] :=
  popCalls_singleton _

theorem loopStates_seedOpenSet (htriv : Vertex.triviallyDestructible T = true) (start : T) :
    loopStates (seedOpenSet start : List (DijkstraNode T C)) = [seedOpenSet start, []] := by
  rw [loopStates]
  simp only [seedOpenSet, List.isEmpty_cons, Bool.false_eq_true, if_false]
  split
  · rename_i e he
    rw [pop_singleton htriv] at he
    cases he
  · rename_i rest he
    rw [pop_singleton htriv] at he
    cases he
  · rename_i cur rest he
    rw [pop_singleton htriv] at he
    cases he
    rw [loopStates_nil]

end LoopFacts

/-- Claim C13 (no empty-frontier access): the loop of `dijkstra` is entered with the one-element
open set holding the start node and calls `pop` once, with that open set. Whatever open set the
loop is entered with, every call of `pop` it makes is on a non-empty open set and does not take
the failure branch for an empty vector; so neither the loop nor `dijkstra` ever ends in the
fault of an access to an empty open set. -/
theorem dijkstra_pop_never_empty {T C : Type} [Arithmetic C] [Vertex T]
    (start goal : T) (neighborFn : T → List T) (costFn : T → T → C) :
    popCalls (seedOpenSet start : List (DijkstraNode T C)) = [seedOpenSet start] ∧
      (∀ openSet : List (DijkstraNode T C), ∀ s ∈ popCalls openSet,
        s ≠ [] ∧ ∀ e, pop s ≠ .error e) ∧
      (∀ openSet : List (DijkstraNode T C),
        extractLoop openSet ≠ .error .emptyFrontierAccess) ∧
      dijkstra start goal neighborFn costFn ≠ .error .emptyFrontierAccess := by
  refine ⟨popCalls_seedOpenSet start, ?_, extractLoop_ne_emptyFrontierAccess,
    dijkstra_ne_emptyFrontierAccess start goal neighborFn costFn⟩
  intro openSet s hs
  have hne := popCalls_ne_nil openSet s hs
  exact ⟨hne, fun e he => hne ((pop_error_iff s).mp ⟨e, he⟩)⟩

/-- Claim C14 (node creation): a node built by the constructor from a vertex `v` has `data = v`,
`costToCome = std::numeric_limits<C>::max()`, both flags unset and no parent. For a cost type
whose `max()` is an upper bound of all its values, no cost exceeds the node's `costToCome`. -/
theorem new_node_fields {T C : Type} [Arithmetic C] (v : T) :
    (DijkstraNode.new v : DijkstraNode T C).data = v ∧
      (DijkstraNode.new v : DijkstraNode T C).costToCome = Arithmetic.numericLimitsMax ∧
      (DijkstraNode.new v : DijkstraNode T C).isOpen = false ∧
      (DijkstraNode.new v : DijkstraNode T C).isClosed = false ∧
      (DijkstraNode.new v : DijkstraNode T C).parent = none ∧
      ((∀ c : C, c ≤ Arithmetic.numericLimitsMax) →
        ∀ c : C, c ≤ (DijkstraNode.new v : DijkstraNode T C).costToCome) :=
  ⟨rfl, rfl, rfl, rfl, rfl, fun h c => h c⟩

/-- Witness of claim C14 for the cost type `unsigned char`: the new node for vertex A has cost
255, and no value of the type exceeds it. -/
theorem new_node_fields_witness :
    (DijkstraNode.new ExampleVertex.A : DijkstraNode ExampleVertex (Fin 256)).costToCome = 255 ∧
      ∀ c : Fin 256,
        c ≤ (DijkstraNode.new ExampleVertex.A : DijkstraNode ExampleVertex (Fin 256)).costToCome :=
  ⟨(new_node_fields ExampleVertex.A).2.1,
    (new_node_fields ExampleVertex.A).2.2.2.2.2 (fun c => Nat.le_of_lt_succ c.isLt)⟩

/-- Claim C15, evaluated for the start vertex A: the open set the loop of `dijkstra` is entered
with holds the start node with `isOpen = false`, as the driver appends it with `push_back`
instead of `push`. The values of the open set during the call are that open set and the empty
one. -/
theorem dijkstra_seed_record_not_open :
    (seedOpenSet ExampleVertex.A : List (DijkstraNode ExampleVertex Nat)) =
        [ { data := .A, parent := none, costToCome := 0, isOpen := false, isClosed := false } ] ∧
      loopStates (seedOpenSet ExampleVertex.A : List (DijkstraNode ExampleVertex Nat)) =
        [seedOpenSet ExampleVertex.A, []] ∧
      (∃ s ∈ loopStates (seedOpenSet ExampleVertex.A : List (DijkstraNode ExampleVertex Nat)),
        ∃ r ∈ s, r.isOpen = false) ∧
      (push [] (DijkstraNode.new ExampleVertex.A : DijkstraNode ExampleVertex Nat)).1 =
        [ { data := .A, parent := none, costToCome := 4294967295, isOpen := true,
            isClosed := false } ] := by
  refine ⟨rfl, loopStates_seedOpenSet rfl _, ?_, by decide⟩
  rw [loopStates_seedOpenSet rfl]
  exact ⟨_, List.mem_cons_self _ _, _, List.mem_cons_self _ _, rfl⟩

/-! ## Heap order

The heap algorithms establish and keep the heap order, for every comparison that is a strict weak
ordering. -/

section HeapOrder

variable {α : Type} {comp : α → α → Bool}

theorem swapIdx_left (i j : Nat) : swapIdx i j i = j := by
  unfold swapIdx
  rw [if_pos rfl]

theorem swapIdx_right (i j : Nat) : swapIdx i j j = i := by
  unfold swapIdx
  by_cases h : j = i
  · rw [if_pos h, h]
  · rw [if_neg h, if_pos rfl]

theorem swapIdx_of_ne {i j k : Nat} (hi : k ≠ i) (hj : k ≠ j) : swapIdx i j k = k := by
  unfold swapIdx
  rw [if_neg hi, if_neg hj]

theorem getElem?_swapAt (l : List α) {i j : Nat} (hi : i < l.length) (hj : j < l.length)
    (k : Nat) : (swapAt l i j)[k]? = l[swapIdx i j k]? := by
  by_cases h1 : k = i
  · subst h1
    rw [swapIdx_left]
    exact getElem?_swapAt_left l hi hj
  · by_cases h2 : k = j
    · subst h2
      rw [swapIdx_right]
      exact getElem?_swapAt_right l hi hj
    · rw [swapIdx_of_ne h1 h2]
      exact getElem?_swapAt_of_ne l h1 h2

theorem compAt_swapAt (comp : α → α → Bool) (l : List α) {i j : Nat} (hi : i < l.length)
    (hj : j < l.length) (a b : Nat) :
    compAt comp (swapAt l i j) a b = compAt comp l (swapIdx i j a) (swapIdx i j b) := by
  unfold compAt
  rw [getElem?_swapAt l hi hj, getElem?_swapAt l hi hj]

theorem compAt_asymm (hc : IsHeapComparison comp) {l : List α} {a b : Nat}
    (hab : compAt comp l a b = true) : compAt comp l b a = false := by
  unfold compAt at hab
  split at hab
  · rename_i x y hx hy
    unfold compAt
    rw [hy, hx]
    exact hc.asymm x y hab
  · cases hab

theorem compAt_trans (hc : IsHeapComparison comp) {l : List α} {a b c : Nat}
    (hb : b < l.length) (h1 : compAt comp l a b = false) (h2 : compAt comp l b c = false) :
    compAt comp l a c = false := by
  unfold compAt at h1 h2 ⊢
  rw [List.getElem?_eq_getElem hb] at h1 h2
  split
  · rename_i x z hx hz
    rw [hx] at h1
    rw [hz] at h2
    exact hc.trans_not x l[b] z h1 h2
  · rfl

theorem largerChild_dominates (hc : IsHeapComparison comp) (len : Nat) (l : List α)
    (j i : Nat) (hil : i < len) (hp : (i - 1) / 2 = j) (hi0 : 0 < i)
    (hne : i ≠ largerChild comp len l j) :
    compAt comp l (largerChild comp len l j) i = false := by
  unfold largerChild at hne ⊢
  simp only at hne ⊢
  split
  · rename_i h
    rw [if_pos h] at hne
    have hi : i = 2 * j + 1 := by omega
    rw [hi]
    exact compAt_asymm hc h.2
  · rename_i h
    rw [if_neg h] at hne
    have hi : i = 2 * j + 1 + 1 := by omega
    rw [hi]
    cases hcase : compAt comp l (2 * j + 1) (2 * j + 1 + 1) with
    | false => rfl
    | true => exact absurd ⟨by omega, hcase⟩ h

theorem sift_down_heapFrom (hc : IsHeapComparison comp) (len s fuel : Nat) (l : List α)
    (j : Nat) (hlen : len ≤ l.length) (hsj : s ≤ j) (hfuel : len - j ≤ fuel)
    (h1 : ∀ i, 0 < i → i < len → s ≤ (i - 1) / 2 → (i - 1) / 2 ≠ j →
      compAt comp l ((i - 1) / 2) i = false)
    (h2 : s < j → ∀ i, 0 < i → i < len → (i - 1) / 2 = j →
      compAt comp l ((j - 1) / 2) i = false) :
    HeapFrom comp (sift_down comp len fuel l j) len s := by
  induction fuel generalizing l j with
  | zero =>
    intro i hi0 hil hs
    exact h1 i hi0 hil hs (by omega)
  | succ fuel ih =>
    simp only [sift_down]
    split
    · intro i hi0 hil hs
      exact h1 i hi0 hil hs (by omega)
    · rename_i hA
      have hclt := largerChild_lt comp len l j hA
      have hceq := largerChild_eq comp len l j
      have hdom := largerChild_dominates hc len l j
      generalize largerChild comp len l j = c at hclt hceq hdom ⊢
      have hcj : (c - 1) / 2 = j := by omega
      have hjc : j < c := by omega
      split
      · rename_i hB
        intro i hi0 hil hs
        by_cases hp : (i - 1) / 2 = j
        · rw [hp]
          have hjc2 := compAt_asymm hc hB
          by_cases hic : i = c
          · rw [hic]
            exact hjc2
          · exact compAt_trans hc (by omega) hjc2 (hdom i hil hp hi0 hic)
        · exact h1 i hi0 hil hs hp
      · rename_i hB
        have hB2 : compAt comp l c j = false := by simpa using hB
        have hjl : j < l.length := by omega
        have hcl : c < l.length := by omega
        refine ih _ _ (by rw [swapAt_length]; exact hlen) (by omega) (by omega) ?_ ?_
        · intro i hi0 hil hs hpc
          rw [compAt_swapAt comp l hjl hcl]
          by_cases hpj : (i - 1) / 2 = j
          · rw [hpj, swapIdx_left]
            by_cases hic : i = c
            · rw [hic, swapIdx_right]
              exact hB2
            · rw [swapIdx_of_ne (by omega) hic]
              exact hdom i hil hpj hi0 hic
          · rw [swapIdx_of_ne hpj hpc]
            by_cases hij : i = j
            · rw [hij, swapIdx_left]
              exact h2 (by omega) c (by omega) hclt hcj
            · rw [swapIdx_of_ne hij (by omega)]
              exact h1 i hi0 hil hs hpj
        · intro _ i hi0 hil hpi
          rw [hcj, compAt_swapAt comp l hjl hcl, swapIdx_left,
            swapIdx_of_ne (by omega) (by omega)]
          have := h1 i hi0 hil (by omega) (by omega)
          rw [hpi] at this
          exact this

theorem is_heap_iff_heapFrom (comp : α → α → Bool) (l : List α) :
    is_heap comp l = true ↔ HeapFrom comp l l.length 0 := by
  rw [is_heap_iff]
  constructor
  · intro h i hi0 hil _
    exact h i hi0 hil
  · intro h i hi0 hil
    exact h i hi0 hil (Nat.zero_le _)

theorem make_heap_loop_heapFrom (hc : IsHeapComparison comp) (len start : Nat) (l : List α)
    (hlen : len ≤ l.length) (h : HeapFrom comp l len (start + 1)) :
    HeapFrom comp (make_heap_loop comp len start l) len 0 := by
  induction start generalizing l with
  | zero =>
    exact sift_down_heapFrom hc len 0 len l 0 hlen (Nat.le_refl _) (by omega)
      (fun i hi0 hil _ hp => h i hi0 hil (by omega)) (fun hlt => absurd hlt (Nat.lt_irrefl _))
  | succ start ih =>
    simp only [make_heap_loop]
    apply ih
    · rw [sift_down_length]
      exact hlen
    · exact sift_down_heapFrom hc len (start + 1) len l (start + 1) hlen (Nat.le_refl _)
        (by omega) (fun i hi0 hil hs hp => h i hi0 hil (by omega))
        (fun hlt => absurd hlt (Nat.lt_irrefl _))

theorem make_heap_is_heap (hc : IsHeapComparison comp) (l : List α) :
    is_heap comp (make_heap comp l) = true := by
  rw [is_heap_iff_heapFrom, make_heap_length]
  unfold make_heap
  split
  · apply make_heap_loop_heapFrom hc _ _ l (Nat.le_refl _)
    intro i hi0 hil hs
    omega
  · intro i hi0 hil _
    omega

theorem compAt_dropLast (comp : α → α → Bool) (l : List α) {a b : Nat}
    (ha : a < l.length - 1) (hb : b < l.length - 1) :
    compAt comp l.dropLast a b = compAt comp l a b := by
  unfold compAt
  rw [List.dropLast_eq_take, List.getElem?_take_of_lt ha, List.getElem?_take_of_lt hb]

theorem pop_heap_dropLast_is_heap (hc : IsHeapComparison comp) (l : List α)
    (h : is_heap comp l = true) : is_heap comp (pop_heap comp l).dropLast = true := by
  rw [is_heap_iff_heapFrom] at h ⊢
  rw [List.length_dropLast, pop_heap_length]
  intro i hi0 hil hs
  rw [compAt_dropLast comp _ (by rw [pop_heap_length]; omega) (by rw [pop_heap_length]; omega)]
  have hlt : 1 < l.length := by omega
  unfold pop_heap
  rw [if_pos hlt]
  refine sift_down_heapFrom hc (l.length - 1) 0 (l.length - 1) _ 0 ?_ (Nat.le_refl _)
    (by omega) ?_ (fun hlt0 => absurd hlt0 (Nat.lt_irrefl _)) i hi0 hil hs
  · rw [swapAt_length]
    omega
  · intro k hk0 hkl _ hp
    rw [compAt_swapAt comp l (by omega) (by omega), swapIdx_of_ne hp (by omega),
      swapIdx_of_ne (by omega) (by omega)]
    exact h k hk0 (by omega) (Nat.zero_le _)

theorem sift_up_heapFrom (hc : IsHeapComparison comp) (len fuel : Nat) (l : List α) (i : Nat)
    (hlen : len ≤ l.length) (hil : i < len) (hfuel : i ≤ fuel)
    (h1 : ∀ k, 0 < k → k < len → k ≠ i → compAt comp l ((k - 1) / 2) k = false)
    (h2 : 0 < i → ∀ k, 0 < k → k < len → (k - 1) / 2 = i →
      compAt comp l ((i - 1) / 2) k = false) :
    HeapFrom comp (sift_up comp fuel l i) len 0 := by
  induction fuel generalizing l i with
  | zero =>
    intro k hk0 hkl _
    exact h1 k hk0 hkl (by omega)
  | succ fuel ih =>
    simp only [sift_up]
    split
    · intro k hk0 hkl _
      exact h1 k hk0 hkl (by omega)
    · rename_i hi0
      split
      · rename_i hB
        have hip := compAt_asymm hc hB
        have hpl : (i - 1) / 2 < l.length := by omega
        have hill : i < l.length := by omega
        refine ih _ _ (by rw [swapAt_length]; exact hlen) (by omega) (by omega) ?_ ?_
        · intro k hk0 hkl hkp
          rw [compAt_swapAt comp l hpl hill]
          by_cases hki : k = i
          · rw [hki, swapIdx_left, swapIdx_right]
            exact hip
          · rw [swapIdx_of_ne hkp hki]
            by_cases hqp : (k - 1) / 2 = (i - 1) / 2
            · rw [hqp, swapIdx_left]
              have hpk := h1 k hk0 hkl hki
              rw [hqp] at hpk
              exact compAt_trans hc hpl hip hpk
            · by_cases hqi : (k - 1) / 2 = i
              · rw [hqi, swapIdx_right]
                exact h2 (by omega) k hk0 hkl hqi
              · rw [swapIdx_of_ne hqp hqi]
                exact h1 k hk0 hkl hki
        · intro hp0 k hk0 hkl hkp
          rw [compAt_swapAt comp l hpl hill, swapIdx_of_ne (by omega) (by omega)]
          have hpp := h1 ((i - 1) / 2) hp0 (by omega) (by omega)
          by_cases hki : k = i
          · rw [hki, swapIdx_right]
            exact hpp
          · rw [swapIdx_of_ne (by omega) hki]
            have hpk := h1 k hk0 hkl hki
            rw [hkp] at hpk
            exact compAt_trans hc hpl hpp hpk
      · rename_i hB
        have hB2 : compAt comp l ((i - 1) / 2) i = false := by simpa using hB
        intro k hk0 hkl _
        by_cases hki : k = i
        · rw [hki]
          exact hB2
        · exact h1 k hk0 hkl hki

theorem compAt_append_left (comp : α → α → Bool) (l : List α) (x : α) {a b : Nat}
    (ha : a < l.length) (hb : b < l.length) :
    compAt comp (l ++ [x]) a b = compAt comp l a b := by
  unfold compAt
  rw [List.getElem?_append_left ha, List.getElem?_append_left hb]

theorem push_heap_is_heap (hc : IsHeapComparison comp) (l : List α) (x : α)
    (h : is_heap comp l = true) : is_heap comp (push_heap comp (l ++ [x])) = true := by
  rw [is_heap_iff_heapFrom] at h ⊢
  rw [push_heap_length]
  unfold push_heap
  have hlen : (l ++ [x]).length = l.length + 1 := by simp
  rw [hlen]
  refine sift_up_heapFrom hc (l.length + 1) (l.length + 1) (l ++ [x]) (l.length + 1 - 1)
    (by omega) (by omega) (by omega) ?_ ?_
  · intro k hk0 hkl hkn
    rw [compAt_append_left comp l x (by omega) (by omega)]
    exact h k hk0 (by omega) (Nat.zero_le _)
  · intro _ k hk0 hkl hkp
    omega

end HeapOrder

section SortNodesOrder

variable {T C : Type} [Arithmetic C]

theorem sortNodes_comparison :
    IsHeapComparison (sortNodes : DijkstraNode T C → DijkstraNode T C → Bool) where
  asymm := by
    intro x y h
    simp only [sortNodes, gt_iff_lt, decide_eq_true_eq, decide_eq_false_iff_not, not_lt] at h ⊢
    exact le_of_lt h
  trans_not := by
    intro x y z h1 h2
    simp only [sortNodes, gt_iff_lt, decide_eq_false_iff_not, not_lt] at h1 h2 ⊢
    exact le_trans h1 h2

theorem pushNew_is_heap (openSet : List (DijkstraNode T C)) (n : DijkstraNode T C)
    (h : is_heap sortNodes openSet = true) : is_heap sortNodes (pushNew openSet n).1 = true :=
  push_heap_is_heap sortNodes_comparison openSet _ h

end SortNodesOrder

/-- Claim C16 (heap-order invariant): when the open set is in heap order for `sortNodes`, it is
in heap order after `push` of any node (closed, open and present, open but absent, or new), and
after `pop`, which on a non-empty open set returns without fault. -/
theorem heap_order_preserved {T C : Type} [DecidableEq T] [Arithmetic C] [Vertex T]
    (openSet : List (DijkstraNode T C)) (hheap : is_heap sortNodes openSet = true) :
    (∀ n, is_heap sortNodes (push openSet n).1 = true) ∧
      (∀ node rest, pop openSet = .ok (node, rest) → is_heap sortNodes rest = true) ∧
      (openSet ≠ [] → ∃ node rest, pop openSet = .ok (node, rest) ∧
        is_heap sortNodes rest = true) := by
  have hpop : is_heap sortNodes (pop_heap sortNodes openSet).dropLast = true :=
    pop_heap_dropLast_is_heap sortNodes_comparison openSet hheap
  refine ⟨?_, ?_, ?_⟩
  · intro n
    unfold push
    split
    · exact hheap
    · split
      · simp only
        split
        · exact pushNew_is_heap openSet n hheap
        · exact make_heap_is_heap sortNodes_comparison _
      · exact pushNew_is_heap openSet n hheap
  · intro node rest h
    unfold pop at h
    simp only at h
    split at h
    · cases h
    · split at h <;> cases h <;> exact hpop
  · intro hne
    obtain ⟨front, tail, popped, _, hok, _, _⟩ := pop_ok_of_ne_nil openSet hne
    exact ⟨_, _, hok, hpop⟩

/-- Witness of claim C16: the example open set, which is in heap order. -/
theorem heap_order_preserved_witness :
    is_heap sortNodes exampleHeap = true ∧
      (∀ n, is_heap sortNodes (push exampleHeap n).1 = true) ∧
      (∀ node rest, pop exampleHeap = .ok (node, rest) → is_heap sortNodes rest = true) ∧
      (exampleHeap ≠ [] → ∃ node rest, pop exampleHeap = .ok (node, rest) ∧
        is_heap sortNodes rest = true) :=
  ⟨by decide, heap_order_preserved exampleHeap (by decide)⟩

/-- Claim C17 (insertion of a new entry): for a non-closed node `n` that is not flagged open, or
whose vertex has no entry in the open set, `push` sets `n.isOpen`, and the new open set is a
rearrangement of the old one with one copy of the updated `n` added; it has one entry more. -/
theorem push_inserts_new {T C : Type} [DecidableEq T] [Arithmetic C]
    (openSet : List (DijkstraNode T C)) (n : DijkstraNode T C)
    (hclosed : n.isClosed = false)
    (hnew : n.isOpen = false ∨ ∀ f ∈ openSet, f.data ≠ n.data) :
    (push openSet n).2 = { n with isOpen := true } ∧
      (push openSet n).2.isOpen = true ∧
      List.Perm (push openSet n).1 (openSet ++ [{ n with isOpen := true }]) ∧
      (push openSet n).1.length = openSet.length + 1 := by
  rw [push_of_absent openSet n hclosed hnew]
  have hperm := pushNew_perm openSet n
  refine ⟨rfl, rfl, hperm, ?_⟩
  rw [hperm.length_eq]
  simp

/-- Witness of claim C17: a node for vertex D that is not flagged open, pushed onto the example
open set, which has no entry for D. -/
theorem push_inserts_new_witness :
    (push exampleHeap unopenedNodeD).2 = { unopenedNodeD with isOpen := true } ∧
      (push exampleHeap unopenedNodeD).2.isOpen = true ∧
      List.Perm (push exampleHeap unopenedNodeD).1
        (exampleHeap ++ [{ unopenedNodeD with isOpen := true }]) ∧
      (push exampleHeap unopenedNodeD).1.length = exampleHeap.length + 1 :=
  push_inserts_new exampleHeap unopenedNodeD rfl (Or.inl rfl)

/-- On a non-empty open set `pop` removes one record `x`: the records left are, with `x`, a
rearrangement of the old open set. With a trivially destructible vertex type the node returned
is `x` with `isClosed` set; otherwise it is dangling. -/
theorem pop_removes_front {T C : Type} [Arithmetic C] [Vertex T]
    (openSet : List (DijkstraNode T C)) (hne : openSet ≠ []) :
    ∃ x popped rest, pop openSet = .ok (popped, rest) ∧
      List.Perm (x :: rest) openSet ∧ rest.length + 1 = openSet.length ∧
      (Vertex.triviallyDestructible T = true → popped = .intact { x with isClosed := true }) ∧
      (Vertex.triviallyDestructible T = false → popped = .dangling) := by
  obtain ⟨front, tail, popped, hcons, hpop, hint, hdang⟩ := pop_ok_of_ne_nil openSet hne
  refine ⟨front, popped, _, hpop, ?_, pop_length hpop, hint, hdang⟩
  have hlast : front ∈ (pop_heap sortNodes openSet).getLast? := by
    rw [pop_heap_getLast?, hcons]
    rfl
  have happ := List.dropLast_append_getLast? front hlast
  have hperm := pop_heap_perm sortNodes openSet
  rw [← happ] at hperm
  exact (List.perm_append_singleton front _).symm.trans hperm

/-- Claim C18, evaluated for a `std::string` vertex: `pop` on the open set `dijkstra` seeds for a
start vertex with a long name leaves the open set empty, one entry fewer, but the node it returns
is dangling: it is not the record that was removed, so the old open set is not the new one plus
the returned record. -/
theorem pop_string_returns_not_removed :
    pop (seedOpenSet longNameA : List (DijkstraNode String Nat)) = .ok (.dangling, []) ∧
      (∀ x : DijkstraNode String Nat,
        pop (seedOpenSet longNameA : List (DijkstraNode String Nat)) ≠
          .ok (.intact { x with isClosed := true }, [])) ∧
      (seedOpenSet longNameA : List (DijkstraNode String Nat)).length = 1 := by
  refine ⟨pop_singleton_dangling rfl _, ?_, rfl⟩
  intro x
  rw [seedOpenSet, pop_singleton_dangling rfl]
  intro h
  cases h

end Rift
